import Mathlib

/-!
# Verification of the fallback-chain library

Shallow embedding of `src/fallback-chain.ts`: a `FallbackChain` holds a list of
`Chainable` providers sorted by priority and `execute` walks them in order,
skipping unhealthy providers, racing each execution against a per-item timeout,
and aggregating failures.

Asynchrony is modelled by giving each provider deterministic behaviours for the
one call under consideration: the health check either returns a boolean or
rejects with an error message, and the execute capability settles after
`settleTime` milliseconds with either a value or an error message.  Errors are
modelled by their message strings.  `execute` returns, besides its result, the
full observable trace: emitted events, `onFallback` callback invocations, and
instrumentation recording which provider indices were visited, health-checked
and invoked.
-/

namespace FallbackLib

/-- Behaviour of a provider's optional `healthCheck()` probe for this call:
it settles with a boolean, or rejects with an error (message). -/
inductive HCBehavior where
  | returns (healthy : Bool)
  | throws (msg : String)
deriving DecidableEq, Repr

/-- Result of an awaited execution: resolved value or rejection message. -/
inductive ExecOutcome (α : Type) where
  | ok (v : α)
  | err (msg : String)
deriving DecidableEq, Repr

/-- Behaviour of one invocation of a provider's `execute`: it settles
`settleTime` ms after being started, with the given outcome. -/
structure ExecBehavior (α : Type) where
  settleTime : Nat
  outcome : ExecOutcome α

/-- `Chainable` from the source: a named, prioritised provider with optional
`execute` and `healthCheck` capabilities. -/
structure Chainable (Req α : Type) where
  name : String
  priority : Int
  execute : Option (Req → ExecBehavior α) := none
  healthCheck : Option HCBehavior := none

/-- `FallbackChainOptions`: all fields optional (`undefined` = `none`). -/
structure FallbackChainOptions where
  timeoutPerItem : Option Nat := none
  continueOnError : Option Bool := none

/-- State of a `FallbackChain`: the item list plus resolved options.  The
`onFallback` callback is modelled by recording its invocations in the
execution trace. -/
structure FallbackChain (Req α : Type) where
  items : List (Chainable Req α) := []
  timeoutPerItem : Nat := 30000
  continueOnError : Bool := true

variable {Req α : Type}

/-- The constructor.  `timeoutPerItem: options.timeoutPerItem || 30000` uses
JS truthiness, so a present `0` still yields the default 30000;
`continueOnError: options.continueOnError ?? true` is nullish coalescing, so a
present `false` is preserved. -/
def FallbackChain.new (opts : FallbackChainOptions) : FallbackChain Req α :=
  { items := []
    timeoutPerItem :=
      match opts.timeoutPerItem with
      | some t => if t = 0 then 30000 else t
      | none => 30000
    continueOnError := opts.continueOnError.getD true }

/-- The sort order used by `add`: comparator `(a, b) => a.priority - b.priority`,
i.e. ascending priority. -/
def chainableLE (a b : Chainable Req α) : Bool := a.priority ≤ b.priority

/-- `add(item)`: push then re-sort by priority (`Array.prototype.sort` is a
stable sort, modelled by the stable `List.mergeSort`). -/
def FallbackChain.add (c : FallbackChain Req α) (item : Chainable Req α) :
    FallbackChain Req α :=
  { c with items := (c.items ++ [item]).mergeSort chainableLE }

/-- `remove(name)`: keep the items whose name differs. -/
def FallbackChain.remove (c : FallbackChain Req α) (name : String) :
    FallbackChain Req α :=
  { c with items := c.items.filter (fun it => it.name != name) }

/-- `getItems()`: `[...this.items]`, a copy of the current order (as a value,
the copy has the same contents; the aliasing aspect is modelled separately by
the heap model below). -/
def FallbackChain.getItems (c : FallbackChain Req α) : List (Chainable Req α) :=
  c.items

/-- `get(name)`: first item with a matching name. -/
def FallbackChain.get (c : FallbackChain Req α) (name : String) :
    Option (Chainable Req α) :=
  c.items.find? (fun it => it.name == name)

/-- The `length` getter. -/
def FallbackChain.count (c : FallbackChain Req α) : Nat := c.items.length

/-- `executeWithTimeout`: `Promise.race` of the running execution against a
timer that rejects with `Error('Timeout')` after `timeoutPerItem` ms.  The
timer settles first exactly when the execution settles strictly later than the
timer. -/
def FallbackChain.executeWithTimeout (timeoutPerItem : Nat) (b : ExecBehavior α) :
    ExecOutcome α :=
  if timeoutPerItem < b.settleTime then .err "Timeout" else b.outcome

/-- The outcome an attempt on `item` would have: `none` when the item has no
`execute` capability (it is never invoked), otherwise the raced outcome. -/
def attemptResult (tmo : Nat) (req : Req) (item : Chainable Req α) :
    Option (ExecOutcome α) :=
  item.execute.map (fun f => FallbackChain.executeWithTimeout tmo (f req))

/-- The attempt on `item` completes successfully before its timeout, with
value `v`. -/
def attemptSucceedsWith (tmo : Nat) (req : Req) (item : Chainable Req α) (v : α) :
    Prop :=
  attemptResult tmo req item = some (.ok v)

/-- The attempt on `item` completes successfully before its timeout. -/
def attemptSucceeds (tmo : Nat) (req : Req) (item : Chainable Req α) : Prop :=
  ∃ v, attemptSucceedsWith tmo req item v

/-- The attempt on `item` fails (execution error or timeout) with message `e`. -/
def attemptFailsWith (tmo : Nat) (req : Req) (item : Chainable Req α)
    (e : String) : Prop :=
  attemptResult tmo req item = some (.err e)

/-- Boolean version of "the attempt on `item` fails". -/
def attemptFailsB (tmo : Nat) (req : Req) (item : Chainable Req α) : Bool :=
  match attemptResult tmo req item with
  | some (.err _) => true
  | _ => false

/-- The four events the chain emits. -/
inductive Event where
  | skipped (name reason : String)
  | success (name : String) (index : Nat)
  | error (name errMsg : String)
  | fallback (fromName toName : String)
deriving DecidableEq, Repr

/-- Final outcome of `execute`: resolved value, or thrown error (message). -/
inductive ExecResult (α : Type) where
  | ok (v : α)
  | thrown (msg : String)
deriving DecidableEq, Repr

/-- Trace record for one invoked provider: its index, the item itself, and the
name of the structurally next item in the sequence (what the code reads as
`this.items[i + 1].name` when emitting a fallback), `none` when it is last. -/
structure Attempt (Req α : Type) where
  idx : Nat
  item : Chainable Req α
  nextName : Option String

/-- Everything observable about one `execute` call: its result, the emitted
events in order, the `onFallback` invocations in order, and instrumentation:
the indices whose health check was awaited, the indices reached by the loop,
and the invoked attempts in order. -/
structure ExecOutput (Req α : Type) where
  result : ExecResult α
  events : List Event
  fallbackCalls : List (String × String)
  healthChecked : List Nat
  visited : List Nat
  invoked : List (Attempt Req α)

/-- How the health-check step of the loop body resolves. -/
inductive HCOutcome where
  | proceed (checked : Bool)
  | skip
  | abort (msg : String)
deriving DecidableEq, Repr

/-- Resolve the health-check step: no probe means proceed unchecked; a probe
returning `true` means proceed; `false` means skip this provider; a rejecting
probe aborts the whole call (the `await` is outside the `try` block). -/
def hcOutcome : Option HCBehavior → HCOutcome
  | none => .proceed false
  | some (.returns true) => .proceed true
  | some (.returns false) => .skip
  | some (.throws e) => .abort e

/-- The `for` loop of `execute`, from the providers still to try, the current
index `i`, and the current `lastError`.  Mirrors the source line by line:
health-check gate, inert providers silently passed over, raced execution,
success returning immediately, failure recording `lastError`, emitting
`error` (and `fallback` plus the `onFallback` call when a next item exists),
short-circuiting when `continueOnError` is false, and the final
`throw lastError || new Error('All items in fallback chain failed')`. -/
def execGo (tmo : Nat) (cont : Bool) (req : Req) :
    List (Chainable Req α) → Nat → Option String → ExecOutput Req α
  | [], _, lastError =>
    { result := .thrown (lastError.getD "All items in fallback chain failed")
      events := [], fallbackCalls := [], healthChecked := [], visited := []
      invoked := [] }
  | item :: rest, i, lastError =>
    match hcOutcome item.healthCheck with
    | .abort e =>
      { result := .thrown e, events := [], fallbackCalls := []
        healthChecked := [i], visited := [i], invoked := [] }
    | .skip =>
      let o := execGo tmo cont req rest (i + 1) lastError
      { o with
        events := .skipped item.name "unhealthy" :: o.events
        healthChecked := i :: o.healthChecked
        visited := i :: o.visited }
    | .proceed checked =>
      let hcs : List Nat := if checked then [i] else []
      match item.execute with
      | none =>
        let o := execGo tmo cont req rest (i + 1) lastError
        { o with
          healthChecked := hcs ++ o.healthChecked
          visited := i :: o.visited }
      | some f =>
        match FallbackChain.executeWithTimeout tmo (f req) with
        | .ok v =>
          { result := .ok v, events := [.success item.name i]
            fallbackCalls := [], healthChecked := hcs, visited := [i]
            invoked := [⟨i, item, rest.head?.map (·.name)⟩] }
        | .err e =>
          let nn := rest.head?.map (·.name)
          let fbs := match nn with | some t => [(item.name, t)] | none => []
          let evs := Event.error item.name e ::
            (match nn with | some t => [Event.fallback item.name t] | none => [])
          if cont then
            let o := execGo tmo cont req rest (i + 1) (some e)
            { result := o.result
              events := evs ++ o.events
              fallbackCalls := fbs ++ o.fallbackCalls
              healthChecked := hcs ++ o.healthChecked
              visited := i :: o.visited
              invoked := ⟨i, item, nn⟩ :: o.invoked }
          else
            { result := .thrown e, events := evs, fallbackCalls := fbs
              healthChecked := hcs, visited := [i], invoked := [⟨i, item, nn⟩] }

/-- `execute(request)`. -/
def FallbackChain.execute (c : FallbackChain Req α) (req : Req) :
    ExecOutput Req α :=
  execGo c.timeoutPerItem c.continueOnError req c.items 0 none

/-- The `fallback` events of a trace, in order, as (from, to) pairs. -/
def fallbackEvents : List Event → List (String × String)
  | [] => []
  | .fallback f t :: es => (f, t) :: fallbackEvents es
  | _ :: es => fallbackEvents es

/-- A registration call: `add` or `remove`. -/
inductive ChainOp (Req α : Type) where
  | add (item : Chainable Req α)
  | remove (name : String)

/-- Apply one registration call. -/
def applyOp (c : FallbackChain Req α) : ChainOp Req α → FallbackChain Req α
  | .add item => c.add item
  | .remove name => c.remove name

/-- Apply a sequence of registration calls, oldest first. -/
def applyOps (ops : List (ChainOp Req α)) (c : FallbackChain Req α) :
    FallbackChain Req α :=
  ops.foldl applyOp c

/-- The projection of a trace that is independent of how provider behaviours
are represented: result, events, callback invocations, and the bookkeeping
with invoked attempts reduced to (index, name, next name). -/
def observable (o : ExecOutput Req α) :
    ExecResult α × List Event × List (String × String) × List Nat × List Nat ×
      List (Nat × String × Option String) :=
  (o.result, o.events, o.fallbackCalls, o.healthChecked, o.visited,
    o.invoked.map (fun s => (s.idx, s.item.name, s.nextName)))

/-- A tiny heap of JS arrays: the chain's `this.items` and any arrays returned
to callers are cells in this heap, identified by their index. -/
structure Heap (β : Type) where
  cells : List β

/-- Allocate a fresh array holding `v`; returns its reference. -/
def Heap.alloc (h : Heap β) (v : β) : Nat × Heap β :=
  (h.cells.length, ⟨h.cells ++ [v]⟩)

/-- Dereference an array. -/
def Heap.read (h : Heap β) (r : Nat) : Option β := h.cells[r]?

/-- Mutate the array behind a reference in place. -/
def Heap.write (h : Heap β) (r : Nat) (v : β) : Heap β := ⟨h.cells.set r v⟩

/-- `getItems()` against the heap model: `return [...this.items]` reads the
chain's array and allocates a fresh array with the same contents, returning
the fresh reference (never `this.items` itself). -/
def getItemsRef (h : Heap (List (Chainable Req α))) (itemsRef : Nat) :
    Option (Nat × Heap (List (Chainable Req α))) :=
  (h.read itemsRef).map (fun l => h.alloc l)

/-! ## Concrete instances used by witnesses and counterexamples -/

/-- A provider named "B" (priority 1) that fails immediately with "boom". -/
def itemFailB : Chainable Nat Nat := ⟨"B", 1, some fun _ => ⟨0, .err "boom"⟩, none⟩

/-- A healthy provider named "A" (priority 2) that succeeds with 42. -/
def itemOkA : Chainable Nat Nat :=
  ⟨"A", 2, some fun _ => ⟨0, .ok 42⟩, some (.returns true)⟩

/-- A chain that tries "B" (which fails) and then "A" (which succeeds). -/
def chainBA : FallbackChain Nat Nat :=
  { items := [itemFailB, itemOkA], timeoutPerItem := 100, continueOnError := true }

/-- A provider named "H" (priority 2) whose health check rejects. -/
def itemHCThrows : Chainable Nat Nat :=
  ⟨"H", 2, some fun _ => ⟨0, .ok 1⟩, some (.throws "hc fail")⟩

/-- A provider named "D" (priority 3) that settles only after 500 ms. -/
def itemTimeoutD : Chainable Nat Nat := ⟨"D", 3, some fun _ => ⟨500, .ok 7⟩, none⟩

/-- "B" fails, then "H"'s health check rejects (100 ms timeout budget). -/
def chainC2cex : FallbackChain Nat Nat :=
  { items := [itemFailB, itemHCThrows], timeoutPerItem := 100,
    continueOnError := true }

/-- "B" fails with "boom", then "D" times out (100 ms timeout budget). -/
def chainFailAll : FallbackChain Nat Nat :=
  { items := [itemFailB, itemTimeoutD], timeoutPerItem := 100,
    continueOnError := true }
/-- A provider named "U" (priority 0) whose health check returns false. -/
def itemUnhealthyU : Chainable Nat Nat :=
  ⟨"U", 0, some fun _ => ⟨0, .ok 9⟩, some (.returns false)⟩

/-- "U" is skipped as unhealthy, then "A" succeeds. -/
def chainSkip : FallbackChain Nat Nat :=
  { items := [itemUnhealthyU, itemOkA], timeoutPerItem := 100,
    continueOnError := true }

/-- A single provider whose health check rejects. -/
def chainHCThrow : FallbackChain Nat Nat :=
  { items := [itemHCThrows], timeoutPerItem := 100, continueOnError := true }

/-- The same two providers with `continueOnError = false`. -/
def chainCO : FallbackChain Nat Nat :=
  { items := [itemFailB, itemOkA], timeoutPerItem := 100, continueOnError := false }

/-! ## Loop invariants -/

/-- Every index the loop visits lies in the window it was run on. -/
theorem execGo_visited_bounds {Req α : Type} (tmo : Nat) (cont : Bool)
    (req : Req) :
    ∀ (l : List (Chainable Req α)) (i : Nat) (le : Option String),
      ∀ j ∈ (execGo tmo cont req l i le).visited, i ≤ j ∧ j < i + l.length := by
  intro l
  induction l with
  | nil => intro i le; simp [execGo]
  | cons item rest ih =>
    intro i le j hj
    simp only [List.length_cons]
    cases hco : hcOutcome item.healthCheck with
    | abort e =>
      simp [execGo, hco] at hj
      omega
    | skip =>
      simp only [execGo, hco, List.mem_cons] at hj
      rcases hj with rfl | hj
      · omega
      · have := ih (i + 1) le j hj; omega
    | proceed checked =>
      cases hex : item.execute with
      | none =>
        simp only [execGo, hco, hex, List.mem_cons] at hj
        rcases hj with rfl | hj
        · omega
        · have := ih (i + 1) le j hj; omega
      | some f =>
        cases hrc : FallbackChain.executeWithTimeout tmo (f req) with
        | ok v =>
          simp [execGo, hco, hex, hrc] at hj
          omega
        | err e =>
          cases cont with
          | true =>
            simp only [execGo, hco, hex, hrc, if_true, List.mem_cons] at hj
            rcases hj with rfl | hj
            · omega
            · have := ih (i + 1) (some e) j hj; omega
          | false =>
            simp [execGo, hco, hex, hrc] at hj
            omega

/-- Every health-checked index was visited. -/
theorem execGo_healthChecked_sub_visited {Req α : Type} (tmo : Nat)
    (cont : Bool) (req : Req) :
    ∀ (l : List (Chainable Req α)) (i : Nat) (le : Option String),
      ∀ j ∈ (execGo tmo cont req l i le).healthChecked,
        j ∈ (execGo tmo cont req l i le).visited := by
  intro l
  induction l with
  | nil => intro i le; simp [execGo]
  | cons item rest ih =>
    intro i le j hj
    cases hco : hcOutcome item.healthCheck with
    | abort e =>
      simp [execGo, hco] at hj ⊢
      exact hj
    | skip =>
      simp only [execGo, hco, List.mem_cons] at hj ⊢
      rcases hj with rfl | hj
      · exact Or.inl rfl
      · exact Or.inr (ih (i + 1) le j hj)
    | proceed checked =>
      cases hex : item.execute with
      | none =>
        cases checked <;>
          simp only [execGo, hco, hex, List.mem_cons, List.cons_append,
            List.nil_append, ite_true, ite_false, reduceIte] at hj ⊢
        · exact Or.inr (ih (i + 1) le j hj)
        · rcases hj with rfl | hj
          · exact Or.inl rfl
          · exact Or.inr (ih (i + 1) le j hj)
      | some f =>
        cases hrc : FallbackChain.executeWithTimeout tmo (f req) with
        | ok v =>
          cases checked <;> simp [execGo, hco, hex, hrc] at hj ⊢
          all_goals tauto
        | err e =>
          cases cont with
          | true =>
            cases checked <;>
              simp only [execGo, hco, hex, hrc, if_true, List.mem_cons,
                List.cons_append, List.nil_append, ite_true, ite_false,
                reduceIte] at hj ⊢
            · exact Or.inr (ih (i + 1) (some e) j hj)
            · rcases hj with rfl | hj
              · exact Or.inl rfl
              · exact Or.inr (ih (i + 1) (some e) j hj)
          | false =>
            cases checked <;> simp [execGo, hco, hex, hrc] at hj ⊢
            all_goals tauto

/-- Every invoked index was visited. -/
theorem execGo_invoked_sub_visited {Req α : Type} (tmo : Nat) (cont : Bool)
    (req : Req) :
    ∀ (l : List (Chainable Req α)) (i : Nat) (le : Option String),
      ∀ s ∈ (execGo tmo cont req l i le).invoked,
        s.idx ∈ (execGo tmo cont req l i le).visited := by
  intro l
  induction l with
  | nil => intro i le; simp [execGo]
  | cons item rest ih =>
    intro i le s hs
    cases hco : hcOutcome item.healthCheck with
    | abort e =>
      simp [execGo, hco] at hs
    | skip =>
      simp only [execGo, hco, List.mem_cons] at hs ⊢
      exact Or.inr (ih (i + 1) le s hs)
    | proceed checked =>
      cases hex : item.execute with
      | none =>
        simp only [execGo, hco, hex, List.mem_cons] at hs ⊢
        exact Or.inr (ih (i + 1) le s hs)
      | some f =>
        cases hrc : FallbackChain.executeWithTimeout tmo (f req) with
        | ok v =>
          simp [execGo, hco, hex, hrc] at hs ⊢
          simp [hs]
        | err e =>
          cases cont with
          | true =>
            simp only [execGo, hco, hex, hrc, if_true, List.mem_cons] at hs ⊢
            rcases hs with rfl | hs
            · exact Or.inl rfl
            · exact Or.inr (ih (i + 1) (some e) s hs)
          | false =>
            simp [execGo, hco, hex, hrc] at hs ⊢
            simp [hs]

/-- Invoked attempts really are the items at their recorded indices, and the
recorded "next name" really is the name of the structurally next item. -/
theorem execGo_invoked_link {Req α : Type} (tmo : Nat) (cont : Bool)
    (req : Req) :
    ∀ (l : List (Chainable Req α)) (i : Nat) (le : Option String),
      ∀ s ∈ (execGo tmo cont req l i le).invoked,
        i ≤ s.idx ∧ l[s.idx - i]? = some s.item ∧
        s.nextName = (l[s.idx + 1 - i]?).map (·.name) := by
  intro l
  induction l with
  | nil => intro i le; simp [execGo]
  | cons item rest ih =>
    intro i le s hs
    cases hco : hcOutcome item.healthCheck with
    | abort e => simp [execGo, hco] at hs
    | skip =>
      simp only [execGo, hco] at hs
      obtain ⟨h0, h1, h2⟩ := ih (i + 1) le s hs
      refine ⟨by omega, ?_, ?_⟩
      · have hd : s.idx - i = (s.idx - (i + 1)) + 1 := by omega
        rw [hd, List.getElem?_cons_succ]
        exact h1
      · have hd : s.idx + 1 - i = (s.idx + 1 - (i + 1)) + 1 := by omega
        rw [hd, List.getElem?_cons_succ]
        exact h2
    | proceed checked =>
      cases hex : item.execute with
      | none =>
        simp only [execGo, hco, hex] at hs
        obtain ⟨h0, h1, h2⟩ := ih (i + 1) le s hs
        refine ⟨by omega, ?_, ?_⟩
        · have hd : s.idx - i = (s.idx - (i + 1)) + 1 := by omega
          rw [hd, List.getElem?_cons_succ]
          exact h1
        · have hd : s.idx + 1 - i = (s.idx + 1 - (i + 1)) + 1 := by omega
          rw [hd, List.getElem?_cons_succ]
          exact h2
      | some f =>
        cases hrc : FallbackChain.executeWithTimeout tmo (f req) with
        | ok v =>
          simp only [execGo, hco, hex, hrc, List.mem_singleton] at hs
          subst hs
          refine ⟨Nat.le_refl i, ?_, ?_⟩
          · simp [List.getElem?_cons_zero]
          · simp [List.head?_eq_getElem?]
        | err e =>
          cases cont with
          | true =>
            simp only [execGo, hco, hex, hrc, if_true, List.mem_cons] at hs
            rcases hs with rfl | hs
            · refine ⟨Nat.le_refl i, ?_, ?_⟩
              · simp [List.getElem?_cons_zero]
              · simp [List.head?_eq_getElem?]
            · obtain ⟨h0, h1, h2⟩ := ih (i + 1) (some e) s hs
              refine ⟨by omega, ?_, ?_⟩
              · have hd : s.idx - i = (s.idx - (i + 1)) + 1 := by omega
                rw [hd, List.getElem?_cons_succ]
                exact h1
              · have hd : s.idx + 1 - i = (s.idx + 1 - (i + 1)) + 1 := by omega
                rw [hd, List.getElem?_cons_succ]
                exact h2
          | false =>
            simp only [execGo, hco, hex, hrc, Bool.false_eq_true, if_false,
              List.mem_singleton] at hs
            subst hs
            refine ⟨Nat.le_refl i, ?_, ?_⟩
            · simp [List.getElem?_cons_zero]
            · simp [List.head?_eq_getElem?]

/-- The bounds, for each trace component. -/
theorem execGo_bounds {Req α : Type} (tmo : Nat) (cont : Bool) (req : Req)
    (l : List (Chainable Req α)) (i : Nat) (le : Option String) :
    (∀ j ∈ (execGo tmo cont req l i le).healthChecked,
      i ≤ j ∧ j < i + l.length) ∧
    (∀ j ∈ (execGo tmo cont req l i le).visited,
      i ≤ j ∧ j < i + l.length) ∧
    (∀ s ∈ (execGo tmo cont req l i le).invoked,
      i ≤ s.idx ∧ s.idx < i + l.length) :=
  ⟨fun j hj => execGo_visited_bounds tmo cont req l i le j
      (execGo_healthChecked_sub_visited tmo cont req l i le j hj),
   fun j hj => execGo_visited_bounds tmo cont req l i le j hj,
   fun s hs => execGo_visited_bounds tmo cont req l i le s.idx
      (execGo_invoked_sub_visited tmo cont req l i le s hs)⟩

/-- The loop always visits the index it starts at (when an item is there). -/
theorem execGo_visited_head {Req α : Type} (tmo : Nat) (cont : Bool) (req : Req)
    (item : Chainable Req α) (rest : List (Chainable Req α)) (i : Nat)
    (le : Option String) :
    i ∈ (execGo tmo cont req (item :: rest) i le).visited := by
  cases hco : hcOutcome item.healthCheck with
  | abort e => simp [execGo, hco]
  | skip => simp [execGo, hco]
  | proceed checked =>
    cases hex : item.execute with
    | none => simp [execGo, hco, hex]
    | some f =>
      cases hrc : FallbackChain.executeWithTimeout tmo (f req) with
      | ok v => simp [execGo, hco, hex, hrc]
      | err e => cases cont <;> simp [execGo, hco, hex, hrc]

/-- Success characterization of the loop: it resolves with a value exactly
when some invoked attempt succeeded; then that attempt is unique among the
invoked ones, produced the returned value, and nothing at a later index was
visited. -/
theorem execGo_success_spec {Req α : Type} (tmo : Nat) (cont : Bool)
    (req : Req) :
    ∀ (l : List (Chainable Req α)) (i : Nat) (le : Option String),
      ((∃ v, (execGo tmo cont req l i le).result = .ok v) ↔
        ∃ s ∈ (execGo tmo cont req l i le).invoked,
          attemptSucceeds tmo req s.item) ∧
      ∀ v, (execGo tmo cont req l i le).result = .ok v →
        ∃ s ∈ (execGo tmo cont req l i le).invoked,
          attemptSucceedsWith tmo req s.item v ∧
          (∀ s' ∈ (execGo tmo cont req l i le).invoked, s' ≠ s →
            ¬ attemptSucceeds tmo req s'.item) ∧
          ∀ j ∈ (execGo tmo cont req l i le).visited, j ≤ s.idx := by
  intro l
  induction l with
  | nil =>
    intro i le
    constructor
    · simp [execGo]
    · intro v hv; simp [execGo] at hv
  | cons item rest ih =>
    intro i le
    cases hco : hcOutcome item.healthCheck with
    | abort e =>
      constructor
      · simp [execGo, hco]
      · intro v hv; simp [execGo, hco] at hv
    | skip =>
      obtain ⟨IH1, IH2⟩ := ih (i + 1) le
      constructor
      · simpa only [execGo, hco] using IH1
      · intro v hv
        simp only [execGo, hco] at hv ⊢
        obtain ⟨s, hs, h1, h2, h3⟩ := IH2 v hv
        refine ⟨s, hs, h1, h2, ?_⟩
        intro j hj
        rcases List.mem_cons.mp hj with hj0 | hj
        · have := (execGo_bounds tmo cont req rest (i + 1) le).2.2 s hs
          omega
        · exact h3 j hj
    | proceed checked =>
      cases hex : item.execute with
      | none =>
        obtain ⟨IH1, IH2⟩ := ih (i + 1) le
        constructor
        · simpa only [execGo, hco, hex] using IH1
        · intro v hv
          simp only [execGo, hco, hex] at hv ⊢
          obtain ⟨s, hs, h1, h2, h3⟩ := IH2 v hv
          refine ⟨s, hs, h1, h2, ?_⟩
          intro j hj
          rcases List.mem_cons.mp hj with hj0 | hj
          · have := (execGo_bounds tmo cont req rest (i + 1) le).2.2 s hs
            omega
          · exact h3 j hj
      | some f =>
        cases hrc : FallbackChain.executeWithTimeout tmo (f req) with
        | ok v0 =>
          have hsw : attemptSucceedsWith tmo req item v0 := by
            simp [attemptSucceedsWith, attemptResult, hex, hrc]
          constructor
          · constructor
            · intro _
              exact ⟨⟨i, item, rest.head?.map (·.name)⟩,
                by simp [execGo, hco, hex, hrc], v0, hsw⟩
            · intro _
              exact ⟨v0, by simp [execGo, hco, hex, hrc]⟩
          · intro v hv
            simp only [execGo, hco, hex, hrc] at hv
            obtain rfl : v0 = v := by cases hv; rfl
            refine ⟨⟨i, item, rest.head?.map (·.name)⟩,
              by simp [execGo, hco, hex, hrc], hsw, ?_, ?_⟩
            · intro s' hs' hne
              simp only [execGo, hco, hex, hrc, List.mem_singleton] at hs'
              exact absurd hs' hne
            · intro j hj
              simp only [execGo, hco, hex, hrc, List.mem_singleton] at hj
              simp [hj]
        | err e =>
          have hfail : ¬ attemptSucceeds tmo req item := by
            rintro ⟨v, hv⟩
            simp [attemptSucceedsWith, attemptResult, hex, hrc] at hv
          cases cont with
          | true =>
            obtain ⟨IH1, IH2⟩ := ih (i + 1) (some e)
            constructor
            · simp only [execGo, hco, hex, hrc, reduceIte]
              constructor
              · intro hv
                obtain ⟨s, hs, hsucc⟩ := IH1.mp hv
                exact ⟨s, List.mem_cons_of_mem _ hs, hsucc⟩
              · rintro ⟨s, hs, hsucc⟩
                rcases List.mem_cons.mp hs with rfl | hs
                · exact absurd hsucc hfail
                · exact IH1.mpr ⟨s, hs, hsucc⟩
            · intro v hv
              simp only [execGo, hco, hex, hrc, reduceIte] at hv ⊢
              obtain ⟨s, hs, h1, h2, h3⟩ := IH2 v hv
              have hbd := (execGo_bounds tmo true req rest (i + 1) (some e)).2.2 s hs
              refine ⟨s, List.mem_cons_of_mem _ hs, h1, ?_, ?_⟩
              · intro s' hs' hne
                rcases List.mem_cons.mp hs' with rfl | hs'
                · exact hfail
                · exact h2 s' hs' hne
              · intro j hj
                rcases List.mem_cons.mp hj with rfl | hj
                · omega
                · exact h3 j hj
          | false =>
            constructor
            · constructor
              · rintro ⟨v, hv⟩
                simp [execGo, hco, hex, hrc] at hv
              · rintro ⟨s, hs, hsucc⟩
                simp only [execGo, hco, hex, hrc, Bool.false_eq_true, if_false,
                  List.mem_singleton] at hs
                subst hs
                exact absurd hsucc hfail
            · intro v hv
              simp [execGo, hco, hex, hrc] at hv

/-- With `continueOnError = false`, any invoked failing attempt is terminal:
the call fails with that error and no later index is visited. -/
theorem execGo_short_circuit {Req α : Type} (tmo : Nat) (req : Req) :
    ∀ (l : List (Chainable Req α)) (i : Nat) (le : Option String),
      ∀ s ∈ (execGo tmo false req l i le).invoked,
        ∀ e, attemptFailsWith tmo req s.item e →
          (execGo tmo false req l i le).result = .thrown e ∧
          ∀ j ∈ (execGo tmo false req l i le).visited, j ≤ s.idx := by
  intro l
  induction l with
  | nil => intro i le; simp [execGo]
  | cons item rest ih =>
    intro i le s hs e he
    cases hco : hcOutcome item.healthCheck with
    | abort e0 => simp [execGo, hco] at hs
    | skip =>
      simp only [execGo, hco] at hs ⊢
      obtain ⟨h1, h2⟩ := ih (i + 1) le s hs e he
      refine ⟨h1, ?_⟩
      intro j hj
      rcases List.mem_cons.mp hj with hj0 | hj
      · have := (execGo_bounds tmo false req rest (i + 1) le).2.2 s hs
        omega
      · exact h2 j hj
    | proceed checked =>
      cases hex : item.execute with
      | none =>
        simp only [execGo, hco, hex] at hs ⊢
        obtain ⟨h1, h2⟩ := ih (i + 1) le s hs e he
        refine ⟨h1, ?_⟩
        intro j hj
        rcases List.mem_cons.mp hj with hj0 | hj
        · have := (execGo_bounds tmo false req rest (i + 1) le).2.2 s hs
          omega
        · exact h2 j hj
      | some f =>
        cases hrc : FallbackChain.executeWithTimeout tmo (f req) with
        | ok v0 =>
          simp only [execGo, hco, hex, hrc, List.mem_singleton] at hs
          subst hs
          simp [attemptFailsWith, attemptResult, hex, hrc] at he
        | err e0 =>
          simp only [execGo, hco, hex, hrc, Bool.false_eq_true, if_false,
            List.mem_singleton] at hs
          subst hs
          have he0 : e = e0 := by
            simp [attemptFailsWith, attemptResult, hex, hrc] at he
            exact he.symm
          subst he0
          constructor
          · simp [execGo, hco, hex, hrc]
          · intro j hj
            simp only [execGo, hco, hex, hrc, Bool.false_eq_true, if_false,
              List.mem_singleton] at hj
            simp [hj]

/-- Inversion: the health-check step aborts exactly for a rejecting probe. -/
theorem hcOutcome_abort {h : Option HCBehavior} {e : String}
    (hh : hcOutcome h = .abort e) : h = some (.throws e) := by
  cases h with
  | none => simp [hcOutcome] at hh
  | some b =>
    cases b with
    | returns hb => cases hb <;> simp [hcOutcome] at hh
    | throws msg =>
      simp only [hcOutcome, HCOutcome.abort.injEq] at hh
      subst hh
      rfl

/-- Exhaustion characterization: when no probe rejects and no invoked attempt
succeeds, the loop fails with the last invoked attempt's error, or with the
starting `lastError` (at top level: the generic exhaustion error) when
nothing was invoked. -/
theorem execGo_exhaustion {Req α : Type} (tmo : Nat) (cont : Bool) (req : Req) :
    ∀ (l : List (Chainable Req α)) (i : Nat) (le : Option String),
      (∀ it ∈ l, ∀ e, it.healthCheck ≠ some (.throws e)) →
      (∀ s ∈ (execGo tmo cont req l i le).invoked,
        ¬ attemptSucceeds tmo req s.item) →
      ((execGo tmo cont req l i le).invoked = [] →
        (execGo tmo cont req l i le).result =
          .thrown (le.getD "All items in fallback chain failed")) ∧
      ∀ s, ((execGo tmo cont req l i le).invoked).getLast? = some s →
        ∃ e, attemptFailsWith tmo req s.item e ∧
          (execGo tmo cont req l i le).result = .thrown e := by
  intro l
  induction l with
  | nil =>
    intro i le _ _
    constructor
    · intro _; simp [execGo]
    · intro s hs; simp [execGo] at hs
  | cons item rest ih =>
    intro i le hhc hns
    cases hco : hcOutcome item.healthCheck with
    | abort e =>
      exact absurd (hcOutcome_abort hco)
        (hhc item (List.mem_cons_self item rest) e)
    | skip =>
      simp only [execGo, hco] at hns ⊢
      exact ih (i + 1) le
        (fun it hit => hhc it (List.mem_cons_of_mem _ hit)) hns
    | proceed checked =>
      cases hex : item.execute with
      | none =>
        simp only [execGo, hco, hex] at hns ⊢
        exact ih (i + 1) le
          (fun it hit => hhc it (List.mem_cons_of_mem _ hit)) hns
      | some f =>
        cases hrc : FallbackChain.executeWithTimeout tmo (f req) with
        | ok v0 =>
          have hsucc : attemptSucceeds tmo req item :=
            ⟨v0, by simp [attemptSucceedsWith, attemptResult, hex, hrc]⟩
          simp only [execGo, hco, hex, hrc] at hns
          exact absurd hsucc (hns ⟨i, item, rest.head?.map (·.name)⟩
            (List.mem_singleton.mpr rfl))
        | err e0 =>
          have hfw : attemptFailsWith tmo req item e0 := by
            simp [attemptFailsWith, attemptResult, hex, hrc]
          cases cont with
          | true =>
            simp only [execGo, hco, hex, hrc, reduceIte] at hns ⊢
            have hrec := ih (i + 1) (some e0)
              (fun it hit => hhc it (List.mem_cons_of_mem _ hit))
              (fun s hs => hns s (List.mem_cons_of_mem _ hs))
            constructor
            · intro h; simp at h
            · intro s hs
              cases hinv : (execGo tmo true req rest (i + 1)
                  (some e0)).invoked with
              | nil =>
                rw [hinv, List.getLast?_singleton] at hs
                obtain rfl : (⟨i, item, rest.head?.map (·.name)⟩ :
                    Attempt Req α) = s := by simpa using hs
                refine ⟨e0, hfw, ?_⟩
                have := hrec.1 hinv
                simpa using this
              | cons x xs =>
                rw [hinv, List.getLast?_cons_cons] at hs
                obtain ⟨e, h1, h2⟩ := hrec.2 s (by rw [hinv]; exact hs)
                exact ⟨e, h1, h2⟩
          | false =>
            simp only [execGo, hco, hex, hrc, Bool.false_eq_true,
              if_false] at hns ⊢
            constructor
            · intro h; simp at h
            · intro s hs
              rw [List.getLast?_singleton] at hs
              obtain rfl : (⟨i, item, rest.head?.map (·.name)⟩ :
                  Attempt Req α) = s := by simpa using hs
              exact ⟨e0, hfw, rfl⟩

/-! ## Theorems -/

/-- C1: `execute` returns a value iff some invoked provider's operation
completed successfully before its timeout; the returned value comes from the
(unique, hence first) invoked provider whose operation succeeded — an actual
item of the chain at its recorded index — and no provider after it is
health-checked or invoked. -/
theorem execute_returns_iff_some_attempt_succeeds {Req α : Type}
    (c : FallbackChain Req α) (req : Req) :
    ((∃ v, (c.execute req).result = .ok v) ↔
      ∃ s ∈ (c.execute req).invoked,
        attemptSucceeds c.timeoutPerItem req s.item) ∧
    ∀ v, (c.execute req).result = .ok v →
      ∃ s ∈ (c.execute req).invoked,
        attemptSucceedsWith c.timeoutPerItem req s.item v ∧
        c.items[s.idx]? = some s.item ∧
        (∀ s' ∈ (c.execute req).invoked, s' ≠ s →
          ¬ attemptSucceeds c.timeoutPerItem req s'.item) ∧
        (∀ j ∈ (c.execute req).healthChecked, j ≤ s.idx) ∧
        (∀ s' ∈ (c.execute req).invoked, s'.idx ≤ s.idx) := by
  have h := execGo_success_spec c.timeoutPerItem c.continueOnError req
    c.items 0 none
  simp only [FallbackChain.execute]
  refine ⟨h.1, ?_⟩
  intro v hv
  obtain ⟨s, hs, h1, h2, h3⟩ := h.2 v hv
  have hlink := execGo_invoked_link c.timeoutPerItem c.continueOnError req
    c.items 0 none s hs
  refine ⟨s, hs, h1, ?_, h2, ?_, ?_⟩
  · simpa using hlink.2.1
  · intro j hj
    exact h3 j (execGo_healthChecked_sub_visited c.timeoutPerItem
      c.continueOnError req c.items 0 none j hj)
  · intro s' hs'
    exact h3 s'.idx (execGo_invoked_sub_visited c.timeoutPerItem
      c.continueOnError req c.items 0 none s' hs')

/-- C3: with `continueOnError = false`, the first provider failure (execution
error or timeout) terminates the call with that provider's error, and no
provider after the failing one is health-checked or invoked. -/
theorem short_circuit_on_first_failure {Req α : Type}
    (c : FallbackChain Req α) (req : Req) (hcont : c.continueOnError = false)
    (s : Attempt Req α) (hs : s ∈ (c.execute req).invoked) (e : String)
    (he : attemptFailsWith c.timeoutPerItem req s.item e) :
    (c.execute req).result = .thrown e ∧
    (∀ j ∈ (c.execute req).healthChecked, j ≤ s.idx) ∧
    (∀ s' ∈ (c.execute req).invoked, s'.idx ≤ s.idx) := by
  simp only [FallbackChain.execute, hcont] at hs ⊢
  obtain ⟨h1, h2⟩ := execGo_short_circuit c.timeoutPerItem req c.items 0 none
    s hs e he
  refine ⟨h1, ?_, ?_⟩
  · intro j hj
    exact h2 j (execGo_healthChecked_sub_visited c.timeoutPerItem false req
      c.items 0 none j hj)
  · intro s' hs'
    exact h2 s'.idx (execGo_invoked_sub_visited c.timeoutPerItem false req
      c.items 0 none s' hs')

/-- Witness for C3 on `chainCO`: "B" fails with "boom" at index 0, the call
surfaces "boom", and nothing beyond index 0 is health-checked or invoked. -/
theorem short_circuit_witness :
    (chainCO.execute 0).result = .thrown "boom" ∧
    (∀ j ∈ (chainCO.execute 0).healthChecked,
      j ≤ (Attempt.mk 0 itemFailB (some "A")).idx) ∧
    (∀ s' ∈ (chainCO.execute 0).invoked,
      s'.idx ≤ (Attempt.mk 0 itemFailB (some "A")).idx) :=
  short_circuit_on_first_failure chainCO 0 rfl ⟨0, itemFailB, some "A"⟩
    (List.mem_singleton.mpr rfl) "boom" rfl

/-- Witness for C1 on `chainBA`: the call succeeds with 42 and the theorem
produces the unique succeeding invoked attempt. -/
theorem execute_returns_iff_witness :
    ∃ s ∈ (chainBA.execute 0).invoked,
      attemptSucceedsWith chainBA.timeoutPerItem 0 s.item 42 ∧
      chainBA.items[s.idx]? = some s.item ∧
      (∀ s' ∈ (chainBA.execute 0).invoked, s' ≠ s →
        ¬ attemptSucceeds chainBA.timeoutPerItem 0 s'.item) ∧
      (∀ j ∈ (chainBA.execute 0).healthChecked, j ≤ s.idx) ∧
      (∀ s' ∈ (chainBA.execute 0).invoked, s'.idx ≤ s.idx) :=
  (execute_returns_iff_some_attempt_succeeds chainBA 0).2 42 rfl


/-- C10: constructing a chain with `timeoutPerItem = 0` yields the default
30000 (the default is applied with a JS truthiness check `||`), while
`continueOnError = false` is preserved (that default is applied with the
nullish check `??`); absent options also yield the defaults, and a non-zero
timeout is preserved. -/
theorem new_truthiness_and_nullish_defaults {Req α : Type} :
    (∀ opts : FallbackChainOptions, opts.timeoutPerItem = some 0 →
      (FallbackChain.new opts : FallbackChain Req α).timeoutPerItem = 30000) ∧
    (∀ opts : FallbackChainOptions, opts.timeoutPerItem = none →
      (FallbackChain.new opts : FallbackChain Req α).timeoutPerItem = 30000) ∧
    (∀ opts : FallbackChainOptions, ∀ t, opts.timeoutPerItem = some t → t ≠ 0 →
      (FallbackChain.new opts : FallbackChain Req α).timeoutPerItem = t) ∧
    (∀ opts : FallbackChainOptions, ∀ b, opts.continueOnError = some b →
      (FallbackChain.new opts : FallbackChain Req α).continueOnError = b) ∧
    (∀ opts : FallbackChainOptions, opts.continueOnError = none →
      (FallbackChain.new opts : FallbackChain Req α).continueOnError = true) := by
  refine ⟨?_, ?_, ?_, ?_, ?_⟩
  · intro opts h; simp [FallbackChain.new, h]
  · intro opts h; simp [FallbackChain.new, h]
  · intro opts t h ht; simp [FallbackChain.new, h, ht]
  · intro opts b h; simp [FallbackChain.new, h, Option.getD]
  · intro opts h; simp [FallbackChain.new, h, Option.getD]

/-- Witness for C10: a chain built with `{timeoutPerItem: 0,
continueOnError: false}` has effective timeout 30000 and `continueOnError`
still `false`. -/
theorem new_defaults_witness :
    ((FallbackChain.new
      { timeoutPerItem := some 0, continueOnError := some false } :
        FallbackChain Nat Nat)).timeoutPerItem
        = 30000 ∧
    ((FallbackChain.new
      { timeoutPerItem := some 0, continueOnError := some false } :
        FallbackChain Nat Nat)).continueOnError
        = false :=
  ⟨new_truthiness_and_nullish_defaults.1 _ rfl,
   new_truthiness_and_nullish_defaults.2.2.2.1 _ false rfl⟩

/-- C9: `getItems` returns a snapshot: a freshly allocated array reference,
distinct from the chain's own `items` reference, holding the same contents;
writing anything through the snapshot reference leaves the chain's own array
unchanged. -/
theorem getItemsRef_fresh_copy {Req α : Type}
    (h : Heap (List (Chainable Req α))) (r : Nat) (l : List (Chainable Req α))
    (hr : h.read r = some l) :
    ∃ r' h', getItemsRef h r = some (r', h') ∧ r' ≠ r ∧
      Heap.read h' r' = some l ∧ Heap.read h' r = some l ∧
      ∀ l', Heap.read (Heap.write h' r' l') r = some l := by
  have hlt : r < h.cells.length := by
    rcases List.getElem?_eq_some.mp hr with ⟨hl, -⟩
    exact hl
  refine ⟨h.cells.length, ⟨h.cells ++ [l]⟩, ?_, ?_, ?_, ?_, ?_⟩
  · simp [getItemsRef, hr, Heap.alloc]
  · omega
  · simp [Heap.read]
  · simpa [Heap.read, List.getElem?_append_left hlt] using hr
  · intro l'
    have hne : h.cells.length ≠ r := by omega
    simpa [Heap.read, Heap.write, List.getElem?_set_ne hne,
      List.getElem?_append_left hlt] using hr

/-- Witness for C9 at a concrete one-provider heap. -/
theorem getItemsRef_fresh_copy_witness :
    ∃ r' h', getItemsRef (⟨[[⟨"A", 1, none, none⟩]]⟩ : Heap (List (Chainable Nat Nat))) 0 =
        some (r', h') ∧ r' ≠ 0 ∧
      Heap.read h' r' = some [⟨"A", 1, none, none⟩] ∧
      Heap.read h' 0 = some [⟨"A", 1, none, none⟩] ∧
      ∀ l', Heap.read (Heap.write h' r' l') 0 = some [⟨"A", 1, none, none⟩] :=
  getItemsRef_fresh_copy ⟨[[⟨"A", 1, none, none⟩]]⟩ 0 [⟨"A", 1, none, none⟩] rfl

/-- C4: an attempt races the execution against a timer set to
`timeoutPerItem`: if the timer settles first the attempt fails with the error
"Timeout" (and if the execution settles in time, its own outcome stands), and
a timed-out provider is treated identically to one that fails immediately
with the error "Timeout" — same result, events, `onFallback` invocations, and
bookkeeping, wherever the provider sits in the loop. -/
theorem timeout_treated_as_execution_failure {Req α : Type} (tmo : Nat)
    (cont : Bool) (req : Req) (item : Chainable Req α)
    (f : Req → ExecBehavior α) (hf : item.execute = some f)
    (ht : tmo < (f req).settleTime) :
    FallbackChain.executeWithTimeout tmo (f req) = .err "Timeout" ∧
    (∀ b : ExecBehavior α, ¬ tmo < b.settleTime →
      FallbackChain.executeWithTimeout tmo b = b.outcome) ∧
    ∀ rest i le,
      observable (execGo tmo cont req (item :: rest) i le) =
        observable (execGo tmo cont req
          ({ item with execute := some fun _ => ⟨0, .err "Timeout"⟩ } :: rest)
          i le) := by
  have h1 : FallbackChain.executeWithTimeout tmo (f req) =
      ExecOutcome.err "Timeout" := by
    simp [FallbackChain.executeWithTimeout, ht]
  have h2 : FallbackChain.executeWithTimeout tmo
      (⟨0, ExecOutcome.err "Timeout"⟩ : ExecBehavior α) =
      ExecOutcome.err "Timeout" := by
    simp [FallbackChain.executeWithTimeout]
  refine ⟨h1, ?_, ?_⟩
  · intro b hb; simp [FallbackChain.executeWithTimeout, hb]
  · intro rest i le
    cases hco : hcOutcome item.healthCheck with
    | abort e => simp [execGo, hco, observable]
    | skip => simp [execGo, hco, observable]
    | proceed checked =>
      simp only [execGo, hco, hf, h1, h2]
      cases cont <;> simp [observable]

/-- Witness for C4: with a 100 ms timeout, a provider that would settle after
500 ms fails with "Timeout" and behaves like an immediately failing one. -/
theorem timeout_failure_witness :
    FallbackChain.executeWithTimeout 100
      ((fun _ : Nat => (⟨500, .ok 7⟩ : ExecBehavior Nat)) 0) = .err "Timeout" ∧
    (∀ b : ExecBehavior Nat, ¬ 100 < b.settleTime →
      FallbackChain.executeWithTimeout 100 b = b.outcome) ∧
    ∀ rest i le,
      observable (execGo 100 true 0
        (⟨"D", 1, some fun _ => ⟨500, .ok 7⟩, none⟩ :: rest) i le) =
        observable (execGo 100 true 0
          ({ (⟨"D", 1, some fun _ => ⟨500, .ok 7⟩, none⟩ : Chainable Nat Nat)
              with execute := some fun _ => ⟨0, .err "Timeout"⟩ } :: rest)
          i le) :=
  timeout_treated_as_execution_failure 100 true 0
    ⟨"D", 1, some fun _ => ⟨500, .ok 7⟩, none⟩ (fun _ => ⟨500, .ok 7⟩) rfl
    (by decide)

/-- Counterexample to C2 as stated: in `chainC2cex` no provider succeeds and
exactly one provider ("B", at index 0) actually executed and failed — its
recorded failure is "boom" — yet the call surfaces the health-check rejection
"hc fail", which is neither the last recorded failure nor the generic
exhaustion error. -/
theorem exhaustion_claim_counterexample :
    (chainC2cex.execute 0).invoked.map (fun s => (s.idx, s.item.name)) =
      [(0, "B")] ∧
    attemptFailsWith chainC2cex.timeoutPerItem 0 itemFailB "boom" ∧
    attemptFailsB chainC2cex.timeoutPerItem 0 itemFailB = true ∧
    (chainC2cex.execute 0).result = .thrown "hc fail" ∧
    (chainC2cex.execute 0).result ≠ .thrown "boom" ∧
    (chainC2cex.execute 0).result ≠
      .thrown "All items in fallback chain failed" :=
  ⟨rfl, rfl, rfl, rfl, by decide, by decide⟩

/-- C2 (amended): for every chain in which no invoked attempt succeeds and no
provider's health check rejects, the call fails with the generic exhaustion
error when no provider was invoked, and otherwise with the error of the last
invoked (hence failed) attempt. -/
theorem exhaustion_surfaces_last_failure {Req α : Type}
    (c : FallbackChain Req α) (req : Req)
    (hhc : ∀ it ∈ c.items, ∀ e, it.healthCheck ≠ some (.throws e))
    (hns : ∀ s ∈ (c.execute req).invoked,
      ¬ attemptSucceeds c.timeoutPerItem req s.item) :
    ((c.execute req).invoked = [] →
      (c.execute req).result = .thrown "All items in fallback chain failed") ∧
    ∀ s, ((c.execute req).invoked).getLast? = some s →
      ∃ e, attemptFailsWith c.timeoutPerItem req s.item e ∧
        (c.execute req).result = .thrown e := by
  simp only [FallbackChain.execute] at hns ⊢
  simpa using execGo_exhaustion c.timeoutPerItem c.continueOnError req
    c.items 0 none hhc hns

/-- Witness for C2 (amended) on `chainFailAll`: "B" fails with "boom", "D"
times out; the last invoked attempt is "D" and the call surfaces its error. -/
theorem exhaustion_witness :
    ∃ e, attemptFailsWith chainFailAll.timeoutPerItem 0
        (Attempt.mk 1 itemTimeoutD none).item e ∧
      (chainFailAll.execute 0).result = .thrown e :=
  (exhaustion_surfaces_last_failure chainFailAll 0
    (by
      intro it hit e
      have h2 : it = itemFailB ∨ it = itemTimeoutD := by
        simpa [chainFailAll] using hit
      rcases h2 with rfl | rfl <;> simp [itemFailB, itemTimeoutD])
    (by
      intro s hs
      have hi : (chainFailAll.execute 0).invoked =
          [⟨0, itemFailB, some "D"⟩, ⟨1, itemTimeoutD, none⟩] := rfl
      rw [hi] at hs
      have h2 : s = (⟨0, itemFailB, some "D"⟩ : Attempt Nat Nat) ∨
          s = (⟨1, itemTimeoutD, none⟩ : Attempt Nat Nat) := by simpa using hs
      rcases h2 with rfl | rfl <;> rintro ⟨v, hv⟩ <;>
        simp [attemptSucceedsWith, attemptResult, itemFailB, itemTimeoutD,
          chainFailAll, FallbackChain.executeWithTimeout] at hv)).2
    ⟨1, itemTimeoutD, none⟩ rfl

/-- Fallback characterization of the loop: the `fallback` events coincide
with the `onFallback` invocations, and both are exactly one `(name, next
name)` pair per invoked failing attempt that has a structurally next item —
regardless of that next item's health — in execution order. -/
theorem execGo_fallback_spec {Req α : Type} (tmo : Nat) (cont : Bool)
    (req : Req) :
    ∀ (l : List (Chainable Req α)) (i : Nat) (le : Option String),
      fallbackEvents (execGo tmo cont req l i le).events =
        (execGo tmo cont req l i le).fallbackCalls ∧
      (execGo tmo cont req l i le).fallbackCalls =
        (execGo tmo cont req l i le).invoked.filterMap (fun s =>
          match s.nextName with
          | some t =>
            if attemptFailsB tmo req s.item then some (s.item.name, t) else none
          | none => none) := by
  intro l
  induction l with
  | nil => intro i le; simp [execGo, fallbackEvents]
  | cons item rest ih =>
    intro i le
    cases hco : hcOutcome item.healthCheck with
    | abort e => simp [execGo, hco, fallbackEvents]
    | skip =>
      obtain ⟨IH1, IH2⟩ := ih (i + 1) le
      constructor
      · simp only [execGo, hco, fallbackEvents]
        exact IH1
      · simp only [execGo, hco]
        exact IH2
    | proceed checked =>
      cases hex : item.execute with
      | none =>
        obtain ⟨IH1, IH2⟩ := ih (i + 1) le
        constructor
        · simp only [execGo, hco, hex]
          exact IH1
        · simp only [execGo, hco, hex]
          exact IH2
      | some f =>
        cases hrc : FallbackChain.executeWithTimeout tmo (f req) with
        | ok v0 =>
          have hfb : attemptFailsB tmo req item = false := by
            simp [attemptFailsB, attemptResult, hex, hrc]
          constructor
          · simp [execGo, hco, hex, hrc, fallbackEvents]
          · simp only [execGo, hco, hex, hrc, List.filterMap_cons,
              List.filterMap_nil, hfb, Bool.false_eq_true, if_false]
            cases rest.head? <;> simp
        | err e0 =>
          have hfb : attemptFailsB tmo req item = true := by
            simp [attemptFailsB, attemptResult, hex, hrc]
          cases rest with
          | nil =>
            cases cont with
            | true =>
              obtain ⟨IH1, IH2⟩ := ih (i + 1) (some e0)
              constructor
              · simp only [execGo, hco, hex, hrc, reduceIte, List.head?_nil,
                  Option.map_none, List.nil_append, List.cons_append,
                  fallbackEvents]
                exact IH1
              · simp only [execGo, hco, hex, hrc, reduceIte, List.head?_nil,
                  Option.map_none, List.nil_append, List.filterMap_cons]
                exact IH2
            | false =>
              constructor
              · simp [execGo, hco, hex, hrc, fallbackEvents]
              · simp [execGo, hco, hex, hrc]
          | cons next rest2 =>
            cases cont with
            | true =>
              obtain ⟨IH1, IH2⟩ := ih (i + 1) (some e0)
              constructor
              · simp only [execGo, hco, hex, hrc, reduceIte, List.head?_cons,
                  Option.map_some, List.cons_append, List.nil_append,
                  fallbackEvents]
                exact congrArg _ IH1
              · simp only [execGo, hco, hex, hrc, reduceIte, List.head?_cons,
                  Option.map_some, List.cons_append, List.nil_append,
                  List.filterMap_cons, hfb, if_true]
                exact congrArg _ IH2
            | false =>
              constructor
              · simp [execGo, hco, hex, hrc, fallbackEvents]
              · simp [execGo, hco, hex, hrc, hfb]

/-- C5: whenever an invoked provider fails and a structurally next item
exists, a `fallback {from, to}` event naming that next item is emitted and
`onFallback` is invoked with the same two names (the `fallback` events and the
`onFallback` calls are exactly the pairs contributed by invoked failing
attempts with a next item, in order — so a failing last provider contributes
none, and the next item is named whether or not it is healthy); and each
invoked attempt's recorded next name is the name of `items[idx + 1]`. -/
theorem fallback_notification_spec {Req α : Type} (c : FallbackChain Req α)
    (req : Req) :
    fallbackEvents (c.execute req).events = (c.execute req).fallbackCalls ∧
    (c.execute req).fallbackCalls =
      (c.execute req).invoked.filterMap (fun s =>
        match s.nextName with
        | some t =>
          if attemptFailsB c.timeoutPerItem req s.item then some (s.item.name, t)
          else none
        | none => none) ∧
    ∀ s ∈ (c.execute req).invoked,
      s.nextName = (c.items[s.idx + 1]?).map (·.name) := by
  obtain ⟨h1, h2⟩ := execGo_fallback_spec c.timeoutPerItem c.continueOnError
    req c.items 0 none
  refine ⟨h1, h2, ?_⟩
  intro s hs
  have := (execGo_invoked_link c.timeoutPerItem c.continueOnError req
    c.items 0 none s hs).2.2
  simpa using this

/-- Witness for C5 on `chainBA`: "B" fails at index 0 and the fallback names
"A" = `items[1]`. -/
theorem fallback_notification_witness :
    fallbackEvents (chainBA.execute 0).events = (chainBA.execute 0).fallbackCalls ∧
    (Attempt.mk 0 itemFailB (some "A")).nextName =
      (chainBA.items[(Attempt.mk 0 itemFailB (some "A")).idx + 1]?).map (·.name) :=
  ⟨(fallback_notification_spec chainBA 0).1,
   (fallback_notification_spec chainBA 0).2.2 ⟨0, itemFailB, some "A"⟩
     (by
       have hi : (chainBA.execute 0).invoked =
           [⟨0, itemFailB, some "A"⟩, ⟨1, itemOkA, none⟩] := rfl
       rw [hi]
       exact List.mem_cons_self _ _)⟩

/-- Origin of a thrown error: it is an invoked attempt's failure, a rejecting
health check of a probed item, the starting `lastError`, or (when the starting
`lastError` is empty) the generic exhaustion message.  Skipped and inert
providers never contribute. -/
theorem execGo_thrown_origin {Req α : Type} (tmo : Nat) (cont : Bool)
    (req : Req) :
    ∀ (l : List (Chainable Req α)) (i : Nat) (le : Option String) (e : String),
      (execGo tmo cont req l i le).result = .thrown e →
      (∃ s ∈ (execGo tmo cont req l i le).invoked,
        attemptFailsWith tmo req s.item e) ∨
      (∃ j ∈ (execGo tmo cont req l i le).healthChecked, ∃ it,
        l[j - i]? = some it ∧ it.healthCheck = some (.throws e)) ∨
      le = some e ∨
      (le = none ∧ e = "All items in fallback chain failed") := by
  intro l
  induction l with
  | nil =>
    intro i le e he
    simp only [execGo] at he
    cases le with
    | none => simp at he; tauto
    | some x => simp at he; tauto
  | cons item rest ih =>
    intro i le e he
    cases hco : hcOutcome item.healthCheck with
    | abort e0 =>
      simp only [execGo, hco, ExecResult.thrown.injEq] at he
      subst he
      refine Or.inr (Or.inl ⟨i, ?_, item, ?_, hcOutcome_abort hco⟩)
      · simp [execGo, hco]
      · simp
    | skip =>
      simp only [execGo, hco] at he ⊢
      rcases ih (i + 1) le e he with ⟨s, hs, h⟩ | ⟨j, hj, it, h1, h2⟩ | h | h
      · exact Or.inl ⟨s, hs, h⟩
      · refine Or.inr (Or.inl ⟨j, List.mem_cons_of_mem _ hj, it, ?_, h2⟩)
        have hb := (execGo_bounds tmo cont req rest (i + 1) le).1 j hj
        have hd : j - i = (j - (i + 1)) + 1 := by omega
        rw [hd, List.getElem?_cons_succ]
        exact h1
      · tauto
      · tauto
    | proceed checked =>
      cases hex : item.execute with
      | none =>
        simp only [execGo, hco, hex] at he ⊢
        rcases ih (i + 1) le e he with ⟨s, hs, h⟩ | ⟨j, hj, it, h1, h2⟩ | h | h
        · exact Or.inl ⟨s, hs, h⟩
        · refine Or.inr (Or.inl ⟨j, ?_, it, ?_, h2⟩)
          · cases checked <;> simp
            · exact hj
            · exact Or.inr hj
          · have hb := (execGo_bounds tmo cont req rest (i + 1) le).1 j hj
            have hd : j - i = (j - (i + 1)) + 1 := by omega
            rw [hd, List.getElem?_cons_succ]
            exact h1
        · tauto
        · tauto
      | some f =>
        cases hrc : FallbackChain.executeWithTimeout tmo (f req) with
        | ok v0 => simp [execGo, hco, hex, hrc] at he
        | err e0 =>
          have hfw : attemptFailsWith tmo req item e0 := by
            simp [attemptFailsWith, attemptResult, hex, hrc]
          cases cont with
          | true =>
            simp only [execGo, hco, hex, hrc, reduceIte] at he ⊢
            rcases ih (i + 1) (some e0) e he with
              ⟨s, hs, h⟩ | ⟨j, hj, it, h1, h2⟩ | h | h
            · exact Or.inl ⟨s, List.mem_cons_of_mem _ hs, h⟩
            · refine Or.inr (Or.inl ⟨j, ?_, it, ?_, h2⟩)
              · cases checked <;> simp
                · exact hj
                · exact Or.inr hj
              · have hb := (execGo_bounds tmo true req rest (i + 1)
                    (some e0)).1 j hj
                have hd : j - i = (j - (i + 1)) + 1 := by omega
                rw [hd, List.getElem?_cons_succ]
                exact h1
            · obtain rfl : e0 = e := by simpa using h
              exact Or.inl ⟨⟨i, item, rest.head?.map (·.name)⟩,
                List.mem_cons_self _ _, hfw⟩
            · simp at h
          | false =>
            simp only [execGo, hco, hex, hrc, Bool.false_eq_true, if_false,
              ExecResult.thrown.injEq] at he
            subst he
            exact Or.inl ⟨⟨i, item, rest.head?.map (·.name)⟩,
              by simp [execGo, hco, hex, hrc], hfw⟩

/-- A probed item whose health check rejects aborts the call with the probe's
error, and nothing past it is visited. -/
theorem execGo_hc_throw_aborts {Req α : Type} (tmo : Nat) (cont : Bool)
    (req : Req) :
    ∀ (l : List (Chainable Req α)) (i : Nat) (le : Option String),
      ∀ j ∈ (execGo tmo cont req l i le).healthChecked, ∀ it,
        l[j - i]? = some it → ∀ e, it.healthCheck = some (.throws e) →
          (execGo tmo cont req l i le).result = .thrown e ∧
          ∀ k ∈ (execGo tmo cont req l i le).visited, k ≤ j := by
  intro l
  induction l with
  | nil => intro i le; simp [execGo]
  | cons item rest ih =>
    intro i le j hj it hit e hthrow
    cases hco : hcOutcome item.healthCheck with
    | abort e0 =>
      simp only [execGo, hco, List.mem_singleton] at hj
      subst hj
      simp only [Nat.sub_self, List.getElem?_cons_zero, Option.some.injEq] at hit
      subst hit
      have : e0 = e := by
        have h1 := hcOutcome_abort hco
        rw [hthrow] at h1
        simpa using h1.symm
      subst this
      constructor
      · simp [execGo, hco]
      · intro k hk
        simp only [execGo, hco, List.mem_singleton] at hk
        omega
    | skip =>
      simp only [execGo, hco, List.mem_cons] at hj
      rcases hj with rfl | hj
      · rw [Nat.sub_self, List.getElem?_cons_zero] at hit
        obtain rfl : item = it := by simpa using hit
        rw [hthrow] at hco
        simp [hcOutcome] at hco
      · have hb := (execGo_bounds tmo cont req rest (i + 1) le).1 j hj
        have hd : j - i = (j - (i + 1)) + 1 := by omega
        rw [hd, List.getElem?_cons_succ] at hit
        obtain ⟨h1, h2⟩ := ih (i + 1) le j hj it hit e hthrow
        simp only [execGo, hco]
        refine ⟨h1, ?_⟩
        intro k hk
        rcases List.mem_cons.mp hk with rfl | hk
        · omega
        · exact h2 k hk
    | proceed checked =>
      cases hex : item.execute with
      | none =>
        simp only [execGo, hco, hex, List.mem_append, List.mem_cons] at hj
        have hj2 : j ∈ (execGo tmo cont req rest (i + 1) le).healthChecked := by
          rcases hj with hj | hj
          · cases checked <;> simp at hj
            rw [hj, Nat.sub_self, List.getElem?_cons_zero] at hit
            obtain rfl : item = it := by simpa using hit
            rw [hthrow] at hco
            simp [hcOutcome] at hco
          · exact hj
        have hb := (execGo_bounds tmo cont req rest (i + 1) le).1 j hj2
        have hd : j - i = (j - (i + 1)) + 1 := by omega
        rw [hd, List.getElem?_cons_succ] at hit
        obtain ⟨h1, h2⟩ := ih (i + 1) le j hj2 it hit e hthrow
        simp only [execGo, hco, hex]
        refine ⟨h1, ?_⟩
        intro k hk
        rcases List.mem_cons.mp hk with rfl | hk
        · omega
        · exact h2 k hk
      | some f =>
        have hchk : j ∈ (if checked then [i] else ([] : List Nat)) →
            False := by
          intro hj0
          cases checked <;> simp at hj0
          rw [hj0, Nat.sub_self, List.getElem?_cons_zero] at hit
          obtain rfl : item = it := by simpa using hit
          rw [hthrow] at hco
          simp [hcOutcome] at hco
        cases hrc : FallbackChain.executeWithTimeout tmo (f req) with
        | ok v0 =>
          simp only [execGo, hco, hex, hrc] at hj
          exact absurd (by simpa using hj) (fun h => hchk (by simpa using h))
        | err e0 =>
          cases cont with
          | true =>
            simp only [execGo, hco, hex, hrc, reduceIte,
              List.mem_append] at hj
            have hj2 : j ∈ (execGo tmo true req rest (i + 1)
                (some e0)).healthChecked := by
              rcases hj with hj | hj
              · exact absurd (by simpa using hj)
                  (fun h => absurd (hchk (by simpa using h)) not_false)
              · exact hj
            have hb := (execGo_bounds tmo true req rest (i + 1) (some e0)).1
              j hj2
            have hd : j - i = (j - (i + 1)) + 1 := by omega
            rw [hd, List.getElem?_cons_succ] at hit
            obtain ⟨h1, h2⟩ := ih (i + 1) (some e0) j hj2 it hit e hthrow
            simp only [execGo, hco, hex, hrc, reduceIte]
            refine ⟨h1, ?_⟩
            intro k hk
            rcases List.mem_cons.mp hk with rfl | hk
            · omega
            · exact h2 k hk
          | false =>
            simp only [execGo, hco, hex, hrc, Bool.false_eq_true,
              if_false] at hj
            exact absurd (by simpa using hj)
              (fun h => absurd (hchk (by simpa using h)) not_false)

/-- A probed item whose health check returns `false` gets a `skipped`
notification, and the loop advances to the next index when one exists. -/
theorem execGo_skipped_emits {Req α : Type} (tmo : Nat) (cont : Bool)
    (req : Req) :
    ∀ (l : List (Chainable Req α)) (i : Nat) (le : Option String),
      ∀ j ∈ (execGo tmo cont req l i le).healthChecked, ∀ it,
        l[j - i]? = some it → it.healthCheck = some (.returns false) →
          Event.skipped it.name "unhealthy" ∈ (execGo tmo cont req l i le).events ∧
          (j + 1 - i < l.length → (j + 1) ∈ (execGo tmo cont req l i le).visited) := by
  intro l
  induction l with
  | nil => intro i le; simp [execGo]
  | cons item rest ih =>
    intro i le j hj it hit hfalse
    cases hco : hcOutcome item.healthCheck with
    | abort e0 =>
      simp only [execGo, hco, List.mem_singleton] at hj
      subst hj
      rw [Nat.sub_self, List.getElem?_cons_zero] at hit
      obtain rfl : item = it := by simpa using hit
      rw [hfalse] at hco
      simp [hcOutcome] at hco
    | skip =>
      simp only [execGo, hco, List.mem_cons] at hj
      rcases hj with rfl | hj
      · rw [Nat.sub_self, List.getElem?_cons_zero] at hit
        obtain rfl : item = it := by simpa using hit
        constructor
        · simp [execGo, hco]
        · intro hlen
          cases rest with
          | nil => simp at hlen
          | cons x rest2 =>
            simp only [execGo, hco]
            exact List.mem_cons_of_mem _
              (execGo_visited_head tmo cont req x rest2 (j + 1) le)
      · have hb := (execGo_bounds tmo cont req rest (i + 1) le).1 j hj
        have hd : j - i = (j - (i + 1)) + 1 := by omega
        rw [hd, List.getElem?_cons_succ] at hit
        obtain ⟨h1, h2⟩ := ih (i + 1) le j hj it hit hfalse
        constructor
        · simp only [execGo, hco]
          exact List.mem_cons_of_mem _ h1
        · intro hlen
          simp only [List.length_cons] at hlen
          have : j + 1 - (i + 1) < rest.length := by omega
          simp only [execGo, hco]
          exact List.mem_cons_of_mem _ (h2 this)
    | proceed checked =>
      have hchk : ∀ j0 ∈ (if checked then [i] else ([] : List Nat)),
          j0 = i := by
        intro j0 hj0
        cases checked
        · simp at hj0
        · simpa using hj0
      have hcontra : j = i → False := by
        intro hji
        rw [hji, Nat.sub_self, List.getElem?_cons_zero] at hit
        obtain rfl : item = it := by simpa using hit
        rw [hfalse] at hco
        simp [hcOutcome] at hco
      cases hex : item.execute with
      | none =>
        simp only [execGo, hco, hex, List.mem_append] at hj
        have hj2 : j ∈ (execGo tmo cont req rest (i + 1) le).healthChecked := by
          rcases hj with hj | hj
          · exact absurd (hchk j hj) hcontra
          · exact hj
        have hb := (execGo_bounds tmo cont req rest (i + 1) le).1 j hj2
        have hd : j - i = (j - (i + 1)) + 1 := by omega
        rw [hd, List.getElem?_cons_succ] at hit
        obtain ⟨h1, h2⟩ := ih (i + 1) le j hj2 it hit hfalse
        constructor
        · simpa only [execGo, hco, hex] using h1
        · intro hlen
          simp only [List.length_cons] at hlen
          have : j + 1 - (i + 1) < rest.length := by omega
          simp only [execGo, hco, hex]
          exact List.mem_cons_of_mem _ (h2 this)
      | some f =>
        cases hrc : FallbackChain.executeWithTimeout tmo (f req) with
        | ok v0 =>
          simp only [execGo, hco, hex, hrc] at hj
          exact absurd (hchk j (by simpa using hj)) hcontra
        | err e0 =>
          cases cont with
          | true =>
            simp only [execGo, hco, hex, hrc, reduceIte, List.mem_append] at hj
            have hj2 : j ∈ (execGo tmo true req rest (i + 1)
                (some e0)).healthChecked := by
              rcases hj with hj | hj
              · exact absurd (hchk j hj) hcontra
              · exact hj
            have hb := (execGo_bounds tmo true req rest (i + 1) (some e0)).1
              j hj2
            have hd : j - i = (j - (i + 1)) + 1 := by omega
            rw [hd, List.getElem?_cons_succ] at hit
            obtain ⟨h1, h2⟩ := ih (i + 1) (some e0) j hj2 it hit hfalse
            constructor
            · simp only [execGo, hco, hex, hrc, reduceIte]
              exact List.mem_append.mpr (Or.inr h1)
            · intro hlen
              simp only [List.length_cons] at hlen
              have : j + 1 - (i + 1) < rest.length := by omega
              simp only [execGo, hco, hex, hrc, reduceIte]
              exact List.mem_cons_of_mem _ (h2 this)
          | false =>
            simp only [execGo, hco, hex, hrc, Bool.false_eq_true,
              if_false] at hj
            exact absurd (hchk j (by simpa using hj)) hcontra

/-- An invoked provider's health check never returned `false`. -/
theorem execGo_invoked_not_unhealthy {Req α : Type} (tmo : Nat) (cont : Bool)
    (req : Req) :
    ∀ (l : List (Chainable Req α)) (i : Nat) (le : Option String),
      ∀ s ∈ (execGo tmo cont req l i le).invoked,
        s.item.healthCheck ≠ some (.returns false) := by
  intro l
  induction l with
  | nil => intro i le; simp [execGo]
  | cons item rest ih =>
    intro i le s hs
    cases hco : hcOutcome item.healthCheck with
    | abort e0 => simp [execGo, hco] at hs
    | skip =>
      simp only [execGo, hco] at hs
      exact ih (i + 1) le s hs
    | proceed checked =>
      have hhd : item.healthCheck ≠ some (.returns false) := by
        intro h
        rw [h] at hco
        simp [hcOutcome] at hco
      cases hex : item.execute with
      | none =>
        simp only [execGo, hco, hex] at hs
        exact ih (i + 1) le s hs
      | some f =>
        cases hrc : FallbackChain.executeWithTimeout tmo (f req) with
        | ok v0 =>
          simp only [execGo, hco, hex, hrc, List.mem_singleton] at hs
          subst hs
          exact hhd
        | err e0 =>
          cases cont with
          | true =>
            simp only [execGo, hco, hex, hrc, reduceIte, List.mem_cons] at hs
            rcases hs with rfl | hs
            · exact hhd
            · exact ih (i + 1) (some e0) s hs
          | false =>
            simp only [execGo, hco, hex, hrc, Bool.false_eq_true, if_false,
              List.mem_singleton] at hs
            subst hs
            exact hhd

/-- C6: a provider whose health check returns false gets a
`skipped {name, reason: "unhealthy"}` notification and the loop advances to
the next index; it is never invoked; every `onFallback` pair's failing source
is an invoked (hence not skipped) failing provider; and every surfaced error
is an invoked attempt's failure, a probe rejection, or the generic exhaustion
message — never a contribution of a skipped provider. -/
theorem skipped_provider_spec {Req α : Type} (c : FallbackChain Req α)
    (req : Req) :
    (∀ j ∈ (c.execute req).healthChecked, ∀ it, c.items[j]? = some it →
      it.healthCheck = some (.returns false) →
        Event.skipped it.name "unhealthy" ∈ (c.execute req).events ∧
        (j + 1 < c.items.length → (j + 1) ∈ (c.execute req).visited)) ∧
    (∀ s ∈ (c.execute req).invoked,
      s.item.healthCheck ≠ some (.returns false)) ∧
    (∀ p ∈ (c.execute req).fallbackCalls, ∃ s ∈ (c.execute req).invoked,
      s.item.name = p.1 ∧ attemptFailsB c.timeoutPerItem req s.item = true) ∧
    ∀ e, (c.execute req).result = .thrown e →
      (∃ s ∈ (c.execute req).invoked,
        attemptFailsWith c.timeoutPerItem req s.item e) ∨
      (∃ j ∈ (c.execute req).healthChecked, ∃ it, c.items[j]? = some it ∧
        it.healthCheck = some (.throws e)) ∨
      e = "All items in fallback chain failed" := by
  have ha := execGo_skipped_emits c.timeoutPerItem c.continueOnError req
    c.items 0 none
  have hb := execGo_invoked_not_unhealthy c.timeoutPerItem c.continueOnError
    req c.items 0 none
  have hc2 := (execGo_fallback_spec c.timeoutPerItem c.continueOnError req
    c.items 0 none).2
  have hd := execGo_thrown_origin c.timeoutPerItem c.continueOnError req
    c.items 0 none
  simp only [FallbackChain.execute]
  refine ⟨?_, hb, ?_, ?_⟩
  · intro j hj it hit hfalse
    have h := ha j hj it (by simpa using hit) hfalse
    simpa using h
  · intro p hp
    rw [hc2] at hp
    obtain ⟨s, hs, hf⟩ := List.mem_filterMap.mp hp
    refine ⟨s, hs, ?_⟩
    rcases hnn : s.nextName with _ | t
    · rw [hnn] at hf
      simp at hf
    · rw [hnn] at hf
      cases hfb : attemptFailsB c.timeoutPerItem req s.item with
      | false => simp [hfb] at hf
      | true =>
        simp only [hfb, if_true] at hf
        obtain rfl : (s.item.name, t) = p := by simpa using hf
        exact ⟨rfl, rfl⟩
  · intro e he
    rcases hd e he with h | ⟨j, hj, it, h1, h2⟩ | h | ⟨-, h⟩
    · exact Or.inl h
    · exact Or.inr (Or.inl ⟨j, hj, it, by simpa using h1, h2⟩)
    · simp at h
    · exact Or.inr (Or.inr h)

/-- Witness for C6 on `chainSkip`: "U" (health check false) is reported
skipped and the loop advances to index 1. -/
theorem skipped_provider_witness :
    Event.skipped "U" "unhealthy" ∈ (chainSkip.execute 0).events ∧
    (0 : Nat) + 1 ∈ (chainSkip.execute 0).visited :=
  ⟨((skipped_provider_spec chainSkip 0).1 0 (by decide) itemUnhealthyU rfl
      rfl).1,
   ((skipped_provider_spec chainSkip 0).1 0 (by decide) itemUnhealthyU rfl
      rfl).2 (by decide)⟩

/-- Counterexample to C7 as stated: in `chainHCThrow` the only provider's
health check rejects with "hc fail"; `execute` fails with exactly that error
(so the probe failure IS propagated to the caller) and emits no notification
at all (so it is not reported via a `skipped` event). -/
theorem hc_propagation_counterexample :
    (chainHCThrow.execute 0).result = .thrown "hc fail" ∧
    (chainHCThrow.execute 0).events = [] ∧
    (chainHCThrow.execute 0).invoked = [] :=
  ⟨rfl, rfl, rfl⟩

/-- C7 (amended): a health-check failure that consists of the probe returning
false is fully absorbed — only a `skipped` notification, the provider is not
invoked, and the loop continues; but a probe that rejects is not absorbed:
`execute` fails with the probe's own error and nothing past that provider is
visited. -/
theorem health_check_failure_propagation {Req α : Type}
    (c : FallbackChain Req α) (req : Req) :
    ∀ j ∈ (c.execute req).healthChecked, ∀ it, c.items[j]? = some it →
      (it.healthCheck = some (.returns false) →
        Event.skipped it.name "unhealthy" ∈ (c.execute req).events ∧
        (∀ s ∈ (c.execute req).invoked, s.idx ≠ j) ∧
        (j + 1 < c.items.length → (j + 1) ∈ (c.execute req).visited)) ∧
      ∀ e, it.healthCheck = some (.throws e) →
        (c.execute req).result = .thrown e ∧
        ∀ k ∈ (c.execute req).visited, k ≤ j := by
  intro j hj it hit
  constructor
  · intro hfalse
    have h := execGo_skipped_emits c.timeoutPerItem c.continueOnError req
      c.items 0 none j hj it (by simpa using hit) hfalse
    refine ⟨h.1, ?_, by simpa using h.2⟩
    intro s hs heq
    have hlink := (execGo_invoked_link c.timeoutPerItem c.continueOnError req
      c.items 0 none s hs).2.1
    rw [heq] at hlink
    simp only [Nat.sub_zero] at hlink
    have : s.item = it := by
      have := hlink.symm.trans hit
      simpa using this
    exact execGo_invoked_not_unhealthy c.timeoutPerItem c.continueOnError req
      c.items 0 none s hs (this ▸ hfalse)
  · intro e hthrow
    have h := execGo_hc_throw_aborts c.timeoutPerItem c.continueOnError req
      c.items 0 none j hj it (by simpa using hit) e hthrow
    exact h

/-- Witness for C7 (amended) on `chainC2cex`: the rejecting probe of "H"
(index 1) aborts the call with "hc fail" and nothing past index 1 is
visited. -/
theorem hc_propagation_witness :
    (chainC2cex.execute 0).result = .thrown "hc fail" ∧
    ∀ k ∈ (chainC2cex.execute 0).visited, k ≤ 1 :=
  ((health_check_failure_propagation chainC2cex 0) 1 (by decide) itemHCThrows
    rfl).2 "hc fail" rfl

/-- `chainableLE` is transitive. -/
theorem chainableLE_trans {Req α : Type} (a b c : Chainable Req α)
    (h1 : chainableLE a b) (h2 : chainableLE b c) : chainableLE a c := by
  simp only [chainableLE, decide_eq_true_eq] at h1 h2 ⊢
  omega

/-- `chainableLE` is total. -/
theorem chainableLE_total {Req α : Type} (a b : Chainable Req α) :
    chainableLE a b || chainableLE b a := by
  simp only [chainableLE, Bool.or_eq_true, decide_eq_true_eq]
  omega

/-- Stability of `mergeSort` in filter form: sorting does not reorder the
elements of any tie class (a predicate whose members are pairwise related by
the sort order). -/
theorem filter_mergeSort_ties {α : Type} (le : α → α → Bool)
    (htrans : ∀ a b c, le a b → le b c → le a c)
    (htotal : ∀ a b, le a b || le b a)
    (p : α → Bool) (hp : ∀ a b, p a = true → p b = true → le a b = true)
    (l : List α) : (l.mergeSort le).filter p = l.filter p := by
  have hpw : (l.filter p).Pairwise (fun a b => le a b = true) := by
    apply List.pairwise_of_forall_mem_list
    intro a ha b hb
    exact hp a b (List.mem_filter.mp ha).2 (List.mem_filter.mp hb).2
  have hsub : List.Sublist (l.filter p) (l.mergeSort le) :=
    List.sublist_mergeSort htrans htotal hpw (List.filter_sublist l)
  have hsub2 : List.Sublist (l.filter p) ((l.mergeSort le).filter p) := by
    have h := hsub.filter p
    simpa using h
  have hlen : ((l.mergeSort le).filter p).length = (l.filter p).length :=
    ((List.mergeSort_perm l le).filter p).length_eq
  exact (hsub2.eq_of_length hlen.symm).symm

/-- One registration call keeps the sequence sorted by priority. -/
theorem applyOp_sorted {Req α : Type} (c : FallbackChain Req α)
    (op : ChainOp Req α)
    (h : c.items.Pairwise (fun a b => a.priority ≤ b.priority)) :
    ((applyOp c op).items).Pairwise (fun a b => a.priority ≤ b.priority) := by
  cases op with
  | add item =>
    have hs := @List.sorted_mergeSort (Chainable Req α) chainableLE
      (fun a b c => chainableLE_trans a b c) (fun a b => chainableLE_total a b)
      (c.items ++ [item])
    exact hs.imp (fun hab => by
      simpa [chainableLE, decide_eq_true_eq] using hab)
  | remove name =>
    exact List.Pairwise.sublist (List.filter_sublist c.items) h

/-- C8: starting from a freshly constructed chain, after any sequence of
`add` and `remove` calls the listing is sorted ascending by priority; and the
re-sort performed by `add` is stable: for every priority the equal-priority
items of `(c.add p).getItems` are exactly those of `c.getItems ++ [p]`, in
that order. -/
theorem getItems_sorted_and_add_stable {Req α : Type}
    (opts : FallbackChainOptions) (ops : List (ChainOp Req α)) :
    ((applyOps ops (FallbackChain.new opts)).getItems).Pairwise
      (fun a b => a.priority ≤ b.priority) ∧
    ∀ (c : FallbackChain Req α) (p : Chainable Req α) (q : Int),
      ((c.add p).getItems).filter (fun x => x.priority == q) =
        (c.getItems ++ [p]).filter (fun x => x.priority == q) := by
  constructor
  · have main : ∀ (ops2 : List (ChainOp Req α)) (c : FallbackChain Req α),
        c.items.Pairwise (fun a b => a.priority ≤ b.priority) →
        ((applyOps ops2 c).items).Pairwise
          (fun a b => a.priority ≤ b.priority) := by
      intro ops2
      induction ops2 with
      | nil => intro c h; simpa [applyOps] using h
      | cons op rest ih =>
        intro c h
        have h1 := applyOp_sorted c op h
        simpa [applyOps] using ih (applyOp c op) h1
    exact main ops (FallbackChain.new opts) (by simp [FallbackChain.new])
  · intro c p q
    simp only [FallbackChain.add, FallbackChain.getItems]
    exact filter_mergeSort_ties chainableLE
      (fun a b c2 => chainableLE_trans a b c2)
      (fun a b => chainableLE_total a b)
      (fun x => x.priority == q)
      (fun a b ha hb => by
        simp only [beq_iff_eq] at ha hb
        simp [chainableLE, ha, hb])
      (c.items ++ [p])

end FallbackLib
